import Mathlib

/-!
Verification development for the seqan3 excerpt: the `my_dna4` tutorial
alphabet, the `seqan3::search_result` record, and a model of the FM-index
cursor and bounded-error search engine described in the specification.

Characters are modelled as their (unsigned) code units in `Nat`, alphabet
symbols as small-integer ranks in `Nat`, and texts as `List Nat` of ranks.
-/

set_option maxRecDepth 4096

/-! ## The `my_dna4` tutorial alphabet (src/unnamed/part_000) -/

/-- Rank-to-character table of `my_dna4` (part_000, line 29): ranks 0,1,2,3 map
to the ASCII codes of `A`, `C`, `G`, `T`. -/
def rank_to_char_table : List Nat := [65, 67, 71, 84]

/-- First build step of `char_to_rank_table` (part_000, line 37): the
value-initialised table, everything rank 0, which equals `A`. -/
def crt0 : List Nat := List.replicate 256 0

/-- Build step for `C`/`c` (part_000, line 39). -/
def crt1 : List Nat := (crt0.set 67 1).set 99 1

/-- Build step for `G`/`g` (part_000, line 40). -/
def crt2 : List Nat := (crt1.set 71 2).set 103 2

/-- Build step for `T`/`t` (part_000, line 41). -/
def crt3 : List Nat := (crt2.set 84 3).set 116 3

/-- Build step for `U` (part_000, line 42): `U` is set to the current entry of
`T`. -/
def crt4 : List Nat := crt3.set 85 (crt3.getD 84 0)

/-- Character-to-value conversion table of `my_dna4` (part_000, lines 32-47);
the final build step (line 43) sets `u` to the current entry of `t`. -/
def char_to_rank_table : List Nat := crt4.set 117 (crt4.getD 116 0)

/-- `my_dna4::char_to_rank` (part_000, lines 19-23): the character, read as an
unsigned code unit below 256, indexes the conversion table. -/
def char_to_rank (c : Nat) : Nat := char_to_rank_table.getD c 0

/-- `my_dna4::complement_table` (part_000, lines 63-69): the complements of the
four ranks, each entry written with the `_my_dna4` literal, i.e. built through
`assign_char`, hence through `char_to_rank` (lines 57-60). -/
def complement_table : List Nat :=
  [char_to_rank 84, char_to_rank 71, char_to_rank 67, char_to_rank 65]

/-- Complement of a rank: lookup in `my_dna4::complement_table`. -/
def complementRank (r : Nat) : Nat := complement_table.getD r 0

/-- Character mapping asserted by the claim: `C`/`c` to 1, `G`/`g` to 2,
`T`/`t` to 3, `U`/`u` to the rank of `T`, and every other character
(including `A`/`a` itself) to rank 0. -/
def expectedRank (c : Nat) : Nat :=
  if c = 67 ∨ c = 99 then 1
  else if c = 71 ∨ c = 103 then 2
  else if c = 84 ∨ c = 116 then 3
  else if c = 85 ∨ c = 117 then 3
  else 0

/-! ## The `seqan3::search_result` record (src/include/seqan3/search/search_result.hpp) -/

/-- Modelled from the spec: `seqan3::detail::empty_type`
(core/detail/empty_type.hpp, not part of the excerpt) — the zero-size
placeholder type stored for output fields that were not selected in the search
configuration. -/
structure EmptyType : Type where
  mk ::

/-- State of an FM-index cursor (spec section 4.2): a half-open range
`[lower, upper)` into the suffix permutation table plus the current query
depth. -/
structure Cursor where
  lower : Nat
  upper : Nat
  depth : Nat
deriving DecidableEq

/-- Which of the four output fields of a `search_result` specialisation are
selected, i.e. which template arguments are not `detail::empty_type`
(search_result.hpp, lines 68-79). -/
structure OutputFields where
  query_id : Bool
  index_cursor : Bool
  reference_id : Bool
  reference_begin_position : Bool
deriving DecidableEq

/-- Type of a stored field: the real value type when the field is selected,
the empty placeholder when it is not (search_result.hpp, lines 73-79). -/
@[reducible]
def fieldT (α : Type) : Bool → Type
  | true => α
  | false => EmptyType

/-- One `search_result` specialisation (search_result.hpp, lines 81-192), with
its four private data members (lines 84-91). Query id, reference id and begin
position are integral (`Nat` here); the cursor field holds a `Cursor`. -/
structure SearchResult (sel : OutputFields) where
  query_id_ : fieldT Nat sel.query_id
  cursor_ : fieldT Cursor sel.index_cursor
  reference_id_ : fieldT Nat sel.reference_id
  reference_begin_position_ : fieldT Nat sel.reference_begin_position

/-- Store a value into a field slot: kept when the field is selected, collapsed
to the placeholder when it is not (spec section 4.4, output shaping). -/
def fieldPut (α : Type) (v : α) : (b : Bool) → fieldT α b
  | true => v
  | false => EmptyType.mk

/-- Read a field slot; the proof that the field is selected plays the role of
the `static_assert` in the accessors (search_result.hpp, lines 120-166): the
read is only well-typed for a selected field. -/
def fieldGet (α : Type) : (b : Bool) → fieldT α b → b = true → α
  | true, v, _ => v
  | false, _, h => nomatch h

/-- Value-initialised `search_result` as produced by the public defaulted
default constructor (search_result.hpp, line 106): integral fields are 0, a
cursor field is the zero cursor, placeholders are the unique placeholder
value. -/
def defaultResult (sel : OutputFields) : SearchResult sel :=
  ⟨fieldPut Nat 0 sel.query_id,
   fieldPut Cursor ⟨0, 0, 0⟩ sel.index_cursor,
   fieldPut Nat 0 sel.reference_id,
   fieldPut Nat 0 sel.reference_begin_position⟩

/-- Modelled from the spec: `detail::policy_search_result_builder` — the
privileged friend (search_result.hpp, lines 93-100) through which the search
engine assembles a result, populating exactly the selected fields and leaving
the others as the placeholder (spec sections 3 and 4.4). -/
def buildResult (sel : OutputFields) (qid : Nat) (cur : Cursor) (rid pos : Nat) :
    SearchResult sel :=
  ⟨fieldPut Nat qid sel.query_id,
   fieldPut Cursor cur sel.index_cursor,
   fieldPut Nat rid sel.reference_id,
   fieldPut Nat pos sel.reference_begin_position⟩

/-- `search_result::query_id()` (search_result.hpp, lines 120-127): the
`static_assert` that the field was selected becomes the hypothesis `h`; the
stored value is returned unchanged, with no failure path at run time. -/
def SearchResult.queryId {sel : OutputFields} (r : SearchResult sel)
    (h : sel.query_id = true) : Nat :=
  fieldGet Nat sel.query_id r.query_id_ h

/-- `search_result::index_cursor()` (search_result.hpp, lines 133-140). -/
def SearchResult.indexCursor {sel : OutputFields} (r : SearchResult sel)
    (h : sel.index_cursor = true) : Cursor :=
  fieldGet Cursor sel.index_cursor r.cursor_ h

/-- `search_result::reference_id()` (search_result.hpp, lines 148-155). -/
def SearchResult.referenceId {sel : OutputFields} (r : SearchResult sel)
    (h : sel.reference_id = true) : Nat :=
  fieldGet Nat sel.reference_id r.reference_id_ h

/-- `search_result::reference_begin_position()` (search_result.hpp,
lines 158-166). -/
def SearchResult.referenceBeginPosition {sel : OutputFields} (r : SearchResult sel)
    (h : sel.reference_begin_position = true) : Nat :=
  fieldGet Nat sel.reference_begin_position r.reference_begin_position_ h

/-- Modelled from the spec: comparison on a field slot. For a selected field it
is the value comparison; for the zero-size placeholder (a type with a unique
value) the comparison, where required, is constantly true. -/
def fieldEq (α : Type) [BEq α] : (b : Bool) → fieldT α b → fieldT α b → Bool
  | true, x, y => x == y
  | false, _, _ => true

/-- `search_result` `operator==` (search_result.hpp, lines 173-184), guard
structure transcribed exactly: the `query_id_` comparison (line 175) is
performed unconditionally, while each of the other three comparisons sits
under an `if constexpr` on the presence of its field (lines 176-181). -/
def searchResultEq {sel : OutputFields} (lhs rhs : SearchResult sel) : Bool :=
  let e1 := fieldEq Nat sel.query_id lhs.query_id_ rhs.query_id_
  let e2 := if sel.index_cursor then
      e1 && fieldEq Cursor sel.index_cursor lhs.cursor_ rhs.cursor_
    else e1
  let e3 := if sel.reference_id then
      e2 && fieldEq Nat sel.reference_id lhs.reference_id_ rhs.reference_id_
    else e2
  if sel.reference_begin_position then
    e3 && fieldEq Nat sel.reference_begin_position
      lhs.reference_begin_position_ rhs.reference_begin_position_
  else e3

/-- Which field comparisons `operator==` performs for a given specialisation,
transcribed from the guard structure of lines 173-184: the `query_id`
comparison is unguarded, the other three are guarded by `if constexpr` on
field presence. -/
def eqComparedFields (sel : OutputFields) : OutputFields :=
  ⟨true, sel.index_cursor, sel.reference_id, sel.reference_begin_position⟩

/-- Comparison of exactly the selected fields, as the spec sentence "Equality
compares only the fields that are present" prescribes. -/
def presentFieldsEq {sel : OutputFields} (lhs rhs : SearchResult sel) : Bool :=
  (if sel.query_id then fieldEq Nat sel.query_id lhs.query_id_ rhs.query_id_ else true)
  && (if sel.index_cursor then fieldEq Cursor sel.index_cursor lhs.cursor_ rhs.cursor_ else true)
  && (if sel.reference_id then fieldEq Nat sel.reference_id lhs.reference_id_ rhs.reference_id_ else true)
  && (if sel.reference_begin_position then
        fieldEq Nat sel.reference_begin_position lhs.reference_begin_position_
          rhs.reference_begin_position_
      else true)

/-- Values of a `search_result` specialisation obtainable by code outside the
privileged builder, given the finished results `made` handed out by the search
engine: the public surface (search_result.hpp, lines 102-191) offers only the
defaulted default constructor, results obtained from the engine, and
copy/move construction and assignment from an already obtained value. The
accessors and `operator==` return field values and Booleans, never new
results, and the data members are private. -/
inductive ReachableOutside (sel : OutputFields) (made : List (SearchResult sel)) :
    SearchResult sel → Prop
  | defaulted : ReachableOutside sel made (defaultResult sel)
  | fromEngine (r : SearchResult sel) : r ∈ made → ReachableOutside sel made r
  | copied (r : SearchResult sel) :
      ReachableOutside sel made r → ReachableOutside sel made r

/-! ### Helper lemmas for the record model -/

theorem fieldGet_fieldPut (α : Type) (v : α) :
    ∀ (b : Bool) (h : b = true), fieldGet α b (fieldPut α v b) h = v
  | true, _ => rfl
  | false, h => nomatch h

/-! ### Claim theorems for the alphabet and the result record -/

/-- C9: for every rank `r` in `0..3` of the `my_dna4` alphabet,
`complement(complement(r)) = r` — the complement table is an involution,
pairing `A` (rank 0) with `T` (rank 3) and `C` (rank 1) with `G` (rank 2). -/
theorem complement_involution :
    (∀ r : Nat, r < 4 → complementRank (complementRank r) = r) ∧
    complementRank 0 = 3 ∧ complementRank 1 = 2 ∧
    complementRank 2 = 1 ∧ complementRank 3 = 0 := by
  decide

/-- Witness for C9 at the concrete rank 2. -/
theorem complement_involution_witness : complementRank (complementRank 2) = 2 :=
  complement_involution.1 2 (by decide)

/-- C10: `my_dna4::char_to_rank` is total over all 256 code units and never
signals an error: `C`/`c`, `G`/`g`, `T`/`t` map to ranks 1, 2, 3, `U`/`u` map
to the rank of `T`, and every other character — including `A`/`a` — maps to
rank 0, the rank of `A`. -/
theorem char_to_rank_total_mapping :
    ∀ c : Nat, c < 256 → char_to_rank c = expectedRank c := by
  decide

/-- Witness for C10 at the concrete character `S` (code 83), the character the
tutorial's `main` assigns to show the fallback to `A`. -/
theorem char_to_rank_witness : char_to_rank 83 = expectedRank 83 :=
  char_to_rank_total_mapping 83 (by decide)

/-- C1: for every specialisation, each accessor of a selected output field
returns the stored value; for a field that is not selected the accessor
requires the (then unsatisfiable) selection fact demanded by its
`static_assert`, so the failure is a type-level one and no run-time failure
path exists. Stated through the builder: accessors recover exactly the values
the builder stored. -/
theorem search_result_accessors_return_selected_fields :
    ∀ (sel : OutputFields) (qid : Nat) (cur : Cursor) (rid pos : Nat),
      ((hq : sel.query_id = true) →
        (buildResult sel qid cur rid pos).queryId hq = qid) ∧
      ((hc : sel.index_cursor = true) →
        (buildResult sel qid cur rid pos).indexCursor hc = cur) ∧
      ((hr : sel.reference_id = true) →
        (buildResult sel qid cur rid pos).referenceId hr = rid) ∧
      ((hb : sel.reference_begin_position = true) →
        (buildResult sel qid cur rid pos).referenceBeginPosition hb = pos) := by
  intro sel qid cur rid pos
  exact ⟨fun hq => fieldGet_fieldPut Nat qid sel.query_id hq,
         fun hc => fieldGet_fieldPut Cursor cur sel.index_cursor hc,
         fun hr => fieldGet_fieldPut Nat rid sel.reference_id hr,
         fun hb => fieldGet_fieldPut Nat pos sel.reference_begin_position hb⟩

/-- Witness for C1: with all four fields selected, the accessors recover the
concrete values 3, ⟨1, 2, 2⟩, 4, 5 stored by the builder. -/
theorem search_result_accessors_witness :
    (buildResult ⟨true, true, true, true⟩ 3 ⟨1, 2, 2⟩ 4 5).queryId rfl = 3 ∧
    (buildResult ⟨true, true, true, true⟩ 3 ⟨1, 2, 2⟩ 4 5).indexCursor rfl = ⟨1, 2, 2⟩ ∧
    (buildResult ⟨true, true, true, true⟩ 3 ⟨1, 2, 2⟩ 4 5).referenceId rfl = 4 ∧
    (buildResult ⟨true, true, true, true⟩ 3 ⟨1, 2, 2⟩ 4 5).referenceBeginPosition rfl = 5 :=
  ⟨(search_result_accessors_return_selected_fields ⟨true, true, true, true⟩ 3 ⟨1, 2, 2⟩ 4 5).1 rfl,
   (search_result_accessors_return_selected_fields ⟨true, true, true, true⟩ 3 ⟨1, 2, 2⟩ 4 5).2.1 rfl,
   (search_result_accessors_return_selected_fields ⟨true, true, true, true⟩ 3 ⟨1, 2, 2⟩ 4 5).2.2.1 rfl,
   (search_result_accessors_return_selected_fields ⟨true, true, true, true⟩ 3 ⟨1, 2, 2⟩ 4 5).2.2.2 rfl⟩

/-- C2, counterexample: in the specialisation whose `query_id` field is absent
(and the other three present), `operator==` does not compare only the present
fields — the `query_id_` comparison of line 175 is performed without an
`if constexpr` guard, so the set of compared fields differs from the set of
present fields. -/
theorem search_result_eq_compares_absent_query_id :
    eqComparedFields ⟨false, true, true, true⟩ ≠ ⟨false, true, true, true⟩ := by
  decide

/-- C2, amended: `operator==` compares the cursor, reference id and begin
position fields only when they are present, but performs the `query_id`
comparison unconditionally, even when that field is the empty placeholder;
since the placeholder has a unique value, the resulting Boolean nevertheless
coincides with comparing exactly the present fields. -/
theorem search_result_eq_amended :
    ∀ (sel : OutputFields) (lhs rhs : SearchResult sel),
      eqComparedFields sel =
        ⟨true, sel.index_cursor, sel.reference_id, sel.reference_begin_position⟩ ∧
      searchResultEq lhs rhs = presentFieldsEq lhs rhs := by
  intro sel lhs rhs
  obtain ⟨q, c, r, b⟩ := sel
  refine ⟨rfl, ?_⟩
  cases q <;> cases c <;> cases r <;> cases b <;>
    simp [searchResultEq, presentFieldsEq, fieldEq]

/-- C3: a `search_result` value obtainable by code outside the privileged
builder is either the value-initialised default or one of the results the
search engine handed out — outside code can neither create a result with ad
hoc field values nor mutate one into such a value. -/
theorem search_result_outside_construction :
    ∀ (sel : OutputFields) (made : List (SearchResult sel)) (r : SearchResult sel),
      ReachableOutside sel made r → r = defaultResult sel ∨ r ∈ made := by
  intro sel made r h
  induction h with
  | defaulted => exact Or.inl rfl
  | fromEngine r hr => exact Or.inr hr
  | copied r _ ih => exact ih

/-- Witness for C3: the default-constructed value, reached through the public
default constructor with no engine-made results at all. -/
theorem search_result_outside_construction_witness :
    defaultResult ⟨true, true, true, true⟩ = defaultResult ⟨true, true, true, true⟩ ∨
    defaultResult ⟨true, true, true, true⟩ ∈ ([] : List (SearchResult ⟨true, true, true, true⟩)) :=
  search_result_outside_construction ⟨true, true, true, true⟩ []
    (defaultResult ⟨true, true, true, true⟩) ReachableOutside.defaulted

/-! ## Model of the succinct text index and its cursor (spec sections 4.1, 4.2)

The index machinery itself (`fm_index`, `fm_index_cursor`, `bi_fm_index_cursor`,
`search`) is referenced but not contained in the excerpted files, so this part
is modelled from the specification: the permutation table is the list of all
suffix start positions of the text (one sentinel-terminated reference), ordered
lexicographically, and a cursor holds a half-open range into that table
together with the current query depth. -/

/-- Lexicographic comparison of rank lists; a list compares less-or-equal to
any list it is an initial segment of (the sentinel, absent from the rank
alphabet, sorts first). -/
def lexLe : List Nat → List Nat → Bool
  | [], _ => true
  | _ :: _, [] => false
  | a :: as, b :: bs => if a < b then true else if b < a then false else lexLe as bs

/-- Key of the symbol a suffix continues with after position `d`: 0 when the
suffix has ended, `a + 1` when the next symbol is `a`; ordered the way `lexLe`
orders the continuations. -/
def headKey : List Nat → Nat
  | [] => 0
  | a :: _ => a + 1

theorem lexLe_cons (a b : Nat) (as bs : List Nat) :
    lexLe (a :: as) (b :: bs) = true ↔ (a < b ∨ (a = b ∧ lexLe as bs = true)) := by
  simp only [lexLe]
  by_cases hab : a < b
  · simp [hab]
  · rw [if_neg hab]
    by_cases hba : b < a
    · rw [if_pos hba]
      simp [Nat.ne_of_gt hba, hab]
    · rw [if_neg hba]
      have hab' : a = b := Nat.le_antisymm (Nat.le_of_not_lt hba) (Nat.le_of_not_lt hab)
      simp [hab']

theorem lexLe_total : ∀ x y : List Nat, lexLe x y = true ∨ lexLe y x = true
  | [], _ => Or.inl rfl
  | _ :: _, [] => Or.inr rfl
  | a :: as, b :: bs => by
      rw [lexLe_cons, lexLe_cons]
      rcases Nat.lt_trichotomy a b with hab | hab | hab
      · exact Or.inl (Or.inl hab)
      · rcases lexLe_total as bs with h | h
        · exact Or.inl (Or.inr ⟨hab, h⟩)
        · exact Or.inr (Or.inr ⟨hab.symm, h⟩)
      · exact Or.inr (Or.inl hab)

theorem lexLe_trans :
    ∀ x y z : List Nat, lexLe x y = true → lexLe y z = true → lexLe x z = true
  | [], _, _, _, _ => rfl
  | _ :: _, [], _, h, _ => by simp [lexLe] at h
  | _ :: _, _ :: _, [], _, h => by simp [lexLe] at h
  | a :: as, b :: bs, c :: cs, hxy, hyz => by
      rw [lexLe_cons] at hxy hyz ⊢
      rcases hxy with hab | ⟨hab, hx⟩
      · rcases hyz with hbc | ⟨hbc, _⟩
        · exact Or.inl (Nat.lt_trans hab hbc)
        · exact Or.inl (hbc ▸ hab)
      · rcases hyz with hbc | ⟨hbc, hy⟩
        · exact Or.inl (hab ▸ hbc)
        · exact Or.inr ⟨hab.trans hbc, lexLe_trans as bs cs hx hy⟩

/-- Dropping a shared leading segment does not change the comparison. -/
theorem lexLe_append_same :
    ∀ (P x y : List Nat), lexLe (P ++ x) (P ++ y) = lexLe x y
  | [], _, _ => rfl
  | a :: P, x, y => by
      simp only [List.cons_append, lexLe, Nat.lt_irrefl, if_false]
      exact lexLe_append_same P x y

/-- The continuation keys are monotone along the lexicographic order. -/
theorem headKey_le_of_lexLe :
    ∀ x y : List Nat, lexLe x y = true → headKey x ≤ headKey y
  | [], _, _ => Nat.zero_le _
  | _ :: _, [], h => by simp [lexLe] at h
  | a :: as, b :: bs, h => by
      rw [lexLe_cons] at h
      rcases h with hab | ⟨hab, _⟩
      · exact Nat.succ_le_succ (Nat.le_of_lt hab)
      · exact hab ▸ Nat.le_refl _

/-- Suffix order: position `p` precedes position `q` when the suffix of the
text starting at `p` compares lexicographically less-or-equal to the one
starting at `q`. -/
def sfxLeRel (t : List Nat) : Nat → Nat → Prop :=
  fun p q => lexLe (t.drop p) (t.drop q) = true

instance sfxLeRelDecidable (t : List Nat) : DecidableRel (sfxLeRel t) :=
  fun p q => inferInstanceAs (Decidable (lexLe (t.drop p) (t.drop q) = true))

instance sfxLeRelTotal (t : List Nat) : IsTotal Nat (sfxLeRel t) :=
  ⟨fun p q => lexLe_total (t.drop p) (t.drop q)⟩

instance sfxLeRelTrans (t : List Nat) : IsTrans Nat (sfxLeRel t) :=
  ⟨fun p q r => lexLe_trans (t.drop p) (t.drop q) (t.drop r)⟩

/-- Modelled from the spec: the permutation table of the succinct text index
(spec sections 3 and 4.1) — all suffix start positions of the
sentinel-terminated text (position `length t` is the empty, sentinel-only
suffix), in lexicographic suffix order. -/
def sa (t : List Nat) : List Nat :=
  List.insertionSort (sfxLeRel t) (List.range (t.length + 1))

/-- Occurrence test: the query is an initial segment of the suffix starting at
`p`. This is the spec-side ground truth against which the cursor is checked. -/
def matchesAt (t q : List Nat) (p : Nat) : Bool :=
  (t.drop p).take q.length == q

/-- All begin positions at which the query occurs in the text (the brute-force
occurrence list of spec section 8). -/
def occList (t q : List Nat) : List Nat :=
  (List.range (t.length + 1)).filter (matchesAt t q)

/-- `count()` of a cursor (spec section 4.2): `upper - lower`. -/
def Cursor.count (c : Cursor) : Nat := c.upper - c.lower

/-- `root_cursor()` (spec section 4.1): the cursor of the empty query, the full
range over all suffixes, at depth 0. -/
def rootCursor (t : List Nat) : Cursor := ⟨0, (sa t).length, 0⟩

/-- Continuation key of the suffix starting at `p`, past the first `d`
symbols. -/
def symKey (t : List Nat) (d p : Nat) : Nat := headKey (t.drop (p + d))

/-- The slice of the permutation table a cursor's range designates. -/
def blockOf (t : List Nat) (c : Cursor) : List Nat :=
  ((sa t).drop c.lower).take (c.upper - c.lower)

/-- Modelled from the spec: `fm_index_cursor::extend_right(symbol)` (spec
section 4.2) — the new range is obtained from two rank-style counts over the
current block of the permutation table, offset by the number of suffixes in
the block that continue with a symbol lexicographically smaller than `s` (or
have ended); the depth grows by one. An empty range stays empty. -/
def extendRight (t : List Nat) (c : Cursor) (s : Nat) : Cursor :=
  let ks := (blockOf t c).map (symKey t c.depth)
  ⟨c.lower + ks.countP (fun k => decide (k < s + 1)),
   c.lower + ks.countP (fun k => decide (k < s + 2)),
   c.depth + 1⟩

/-- Modelled from the spec: `extend_right(sequence)` (spec section 4.2) —
symbol-wise extension, left to right. -/
def extendRightSeq (t : List Nat) (c : Cursor) (q : List Nat) : Cursor :=
  q.foldl (extendRight t) c

/-- Modelled from the spec: `locate()` (spec section 4.2) — the suffix-array
values in the cursor's range, i.e. the begin positions of the matches (a
single reference, so no boundary table is needed). -/
def locate (t : List Nat) (c : Cursor) : List Nat := blockOf t c

/-- Modelled from the spec: exact search (spec section 4.4, zero error
budget): extend the root cursor by the whole query, then locate the hits. -/
def searchExact (t q : List Nat) : List Nat :=
  locate t (extendRightSeq t (rootCursor t) q)

/-- Invariant tying a cursor to its query (spec section 3, cursor data model):
the permutation table splits as `A ++ (B ++ C)` where `A` has length `lower`,
`B` is exactly the block of the range and carries exactly the suffixes the
query is a prefix of, and the depth is the query length. -/
def GoodCursor (t pat : List Nat) (c : Cursor) : Prop :=
  c.depth = pat.length ∧
  ∃ A B C : List Nat,
    sa t = A ++ (B ++ C) ∧ A.length = c.lower ∧ B.length = c.count ∧
    (∀ p ∈ A, matchesAt t pat p = false) ∧
    (∀ p ∈ B, matchesAt t pat p = true) ∧
    (∀ p ∈ C, matchesAt t pat p = false)

theorem bool_eq_of_iff {a b : Bool} (h : a = true ↔ b = true) : a = b := by
  cases a <;> cases b <;> simp_all

theorem matchesAt_iff (t q : List Nat) (p : Nat) :
    matchesAt t q p = true ↔ (t.drop p).take q.length = q := by
  simp [matchesAt]

/-- A matching suffix decomposes as the query followed by the rest. -/
theorem drop_eq_pat_append (t pat : List Nat) (p : Nat)
    (h : matchesAt t pat p = true) :
    t.drop p = pat ++ t.drop (p + pat.length) := by
  have h1 := (matchesAt_iff t pat p).mp h
  conv_lhs => rw [← List.take_append_drop pat.length (t.drop p)]
  rw [h1, List.drop_drop]

/-- Extending the query by one symbol refines the occurrence test by the
continuation key. -/
theorem matchesAt_snoc (t pat : List Nat) (s p : Nat) :
    matchesAt t (pat ++ [s]) p
      = (matchesAt t pat p && (symKey t pat.length p == s + 1)) := by
  apply bool_eq_of_iff
  rw [Bool.and_eq_true, matchesAt_iff, matchesAt_iff]
  simp only [List.length_append, List.length_cons, List.length_nil, Nat.zero_add]
  constructor
  · intro h
    have h1 : (t.drop p).take pat.length = pat := by
      have e : (t.drop p).take pat.length
          = ((t.drop p).take (pat.length + 1)).take pat.length := by
        rw [List.take_take, Nat.min_def]
        simp [Nat.le_succ]
      rw [e, h, List.take_left' rfl]
    have h2 : t[p + pat.length]? = some s := by
      have e : ((t.drop p).take (pat.length + 1))[pat.length]? = t[p + pat.length]? := by
        rw [List.getElem?_take, if_pos (Nat.lt_succ_self _), List.getElem?_drop]
      rw [h, List.getElem?_concat_length] at e
      exact e.symm
    refine ⟨h1, ?_⟩
    cases hdrop : t.drop (p + pat.length) with
    | nil =>
        have : t[p + pat.length]? = none := by
          have := List.getElem?_drop t (p + pat.length) 0
          rw [hdrop] at this
          simpa using this.symm
        rw [this] at h2
        exact absurd h2 (by simp)
    | cons a rest =>
        have : t[p + pat.length]? = some a := by
          have := List.getElem?_drop t (p + pat.length) 0
          rw [hdrop] at this
          simpa using this.symm
        rw [this] at h2
        have ha : a = s := by injection h2
        simp [symKey, hdrop, headKey, ha]
  · rintro ⟨h1, h2⟩
    cases hdrop : t.drop (p + pat.length) with
    | nil =>
        rw [symKey, hdrop] at h2
        simp [headKey] at h2
    | cons a rest =>
        rw [symKey, hdrop] at h2
        have ha : a = s := by
          have : a + 1 = s + 1 := by simpa [headKey] using h2
          omega
        subst ha
        have hsp : t[p + pat.length]? = some a := by
          have := List.getElem?_drop t (p + pat.length) 0
          rw [hdrop] at this
          simpa using this.symm
        rw [List.take_succ, h1]
        have : (t.drop p)[pat.length]? = some a := by
          rw [List.getElem?_drop]
          exact hsp
        rw [this]
        rfl

/-- Along the suffix order, matching suffixes have monotone continuation
keys. -/
theorem symKey_mono (t pat : List Nat) (p q : Nat)
    (hp : matchesAt t pat p = true) (hq : matchesAt t pat q = true)
    (hle : sfxLeRel t p q) :
    symKey t pat.length p ≤ symKey t pat.length q := by
  have e1 := drop_eq_pat_append t pat p hp
  have e2 := drop_eq_pat_append t pat q hq
  have h : lexLe (t.drop (p + pat.length)) (t.drop (q + pat.length)) = true := by
    have h0 : lexLe (t.drop p) (t.drop q) = true := hle
    rw [e1, e2, lexLe_append_same] at h0
    exact h0
  exact headKey_le_of_lexLe _ _ h

/-- A list whose key sequence is nondecreasing splits into the elements with
key below, at, and above any threshold, in that order. -/
theorem sorted_split (key : Nat → Nat) (k : Nat) :
    ∀ B : List Nat, List.Pairwise (fun a b => key a ≤ key b) B →
      B = B.filter (fun a => decide (key a < k)) ++
          (B.filter (fun a => decide (key a = k)) ++
           B.filter (fun a => decide (k < key a)))
  | [], _ => by simp
  | a :: B, h => by
      obtain ⟨hhead, htail⟩ := List.pairwise_cons.mp h
      have IH := sorted_split key k B htail
      rcases Nat.lt_trichotomy (key a) k with h1 | h1 | h1
      · have e1 : decide (key a < k) = true := by simp [h1]
        have e2 : decide (key a = k) = false := by simp [Nat.ne_of_lt h1]
        have e3 : decide (k < key a) = false := by simp [Nat.lt_asymm h1]
        simp only [List.filter_cons, e1, e2, e3, if_true, if_false, Bool.false_eq_true,
          List.cons_append]
        exact congrArg (List.cons a) IH
      · have e1 : decide (key a < k) = false := by simp [h1]
        have e2 : decide (key a = k) = true := by simp [h1]
        have e3 : decide (k < key a) = false := by simp [h1]
        have hf1 : B.filter (fun b => decide (key b < k)) = [] := by
          rw [List.filter_eq_nil_iff]
          intro b hb
          have := hhead b hb
          simp only [decide_eq_true_eq]
          omega
        rw [hf1] at IH
        simp only [List.nil_append] at IH
        simp only [List.filter_cons, e1, e2, e3, if_true, if_false, Bool.false_eq_true,
          hf1, List.nil_append, List.cons_append]
        exact congrArg (List.cons a) IH
      · have e1 : decide (key a < k) = false := by simp [Nat.lt_asymm h1]
        have e2 : decide (key a = k) = false := by simp [Nat.ne_of_gt h1]
        have e3 : decide (k < key a) = true := by simp [h1]
        have hf1 : B.filter (fun b => decide (key b < k)) = [] := by
          rw [List.filter_eq_nil_iff]
          intro b hb
          have := hhead b hb
          simp only [decide_eq_true_eq]
          omega
        have hf2 : B.filter (fun b => decide (key b = k)) = [] := by
          rw [List.filter_eq_nil_iff]
          intro b hb
          have := hhead b hb
          simp only [decide_eq_true_eq]
          omega
        rw [hf1, hf2] at IH
        simp only [List.nil_append] at IH
        simp only [List.filter_cons, e1, e2, e3, if_true, if_false, Bool.false_eq_true,
          hf1, hf2, List.nil_append]
        exact congrArg (List.cons a) IH

/-- The range slice of a cursor that satisfies the split invariant is exactly
the middle segment. -/
theorem blockOf_eq (t : List Nat) (c : Cursor) (A B C : List Nat)
    (hsa : sa t = A ++ (B ++ C)) (hA : A.length = c.lower) (hB : B.length = c.count) :
    blockOf t c = B := by
  rw [blockOf, hsa, ← hA, List.drop_left]
  rw [Cursor.count] at hB
  have e : c.upper - A.length = B.length := by omega
  rw [e, List.take_left]

/-- The root cursor satisfies the invariant for the empty query. -/
theorem goodCursor_root (t : List Nat) : GoodCursor t [] (rootCursor t) := by
  refine ⟨rfl, [], sa t, [], by simp, rfl, by simp [Cursor.count, rootCursor], ?_, ?_, ?_⟩
  · intro p hp
    exact absurd hp (List.not_mem_nil p)
  · intro p _
    simp [matchesAt]
  · intro p hp
    exact absurd hp (List.not_mem_nil p)

/-- Main step: a single right extension preserves the invariant, with the
query extended by the symbol. -/
theorem goodCursor_extendRight (t pat : List Nat) (c : Cursor) (s : Nat)
    (h : GoodCursor t pat c) : GoodCursor t (pat ++ [s]) (extendRight t c s) := by
  obtain ⟨hd, A, B, C, hsa, hA, hB, hAm, hBm, hCm⟩ := h
  have hblock : blockOf t c = B := blockOf_eq t c A B C hsa hA hB
  have hkeymono : List.Pairwise
      (fun a b => symKey t pat.length a ≤ symKey t pat.length b) B := by
    have hsorted : List.Pairwise (sfxLeRel t) (sa t) :=
      List.sorted_insertionSort (sfxLeRel t) (List.range (t.length + 1))
    have hsub : B.Sublist (sa t) := by
      rw [hsa]
      exact (List.sublist_append_left B C).trans (List.sublist_append_right A (B ++ C))
    have hpairB : List.Pairwise (sfxLeRel t) B := hsorted.sublist hsub
    exact hpairB.imp_of_mem (fun hx hy hr => symKey_mono t pat _ _ (hBm _ hx) (hBm _ hy) hr)
  have hsplit := sorted_split (symKey t pat.length) (s + 1) B hkeymono
  set B1 := B.filter (fun a => decide (symKey t pat.length a < s + 1)) with hB1
  set B2 := B.filter (fun a => decide (symKey t pat.length a = s + 1)) with hB2
  set B3 := B.filter (fun a => decide (s + 1 < symKey t pat.length a)) with hB3
  have hcnt1 : ((blockOf t c).map (symKey t c.depth)).countP
      (fun k => decide (k < s + 1)) = B1.length := by
    rw [hblock, hd, List.countP_map, hB1, List.countP_eq_length_filter]
    rfl
  have hcnt2 : ((blockOf t c).map (symKey t c.depth)).countP
      (fun k => decide (k < s + 2)) = B1.length + B2.length := by
    rw [hblock, hd, List.countP_map]
    conv_lhs => rw [hsplit]
    rw [List.countP_append, List.countP_append]
    have c1 : B1.countP ((fun k => decide (k < s + 2)) ∘ symKey t pat.length)
        = B1.length := by
      rw [List.countP_eq_length]
      intro a ha
      have := (List.mem_filter.mp (hB1 ▸ ha)).2
      simp only [Function.comp_apply, decide_eq_true_eq] at this ⊢
      omega
    have c2 : B2.countP ((fun k => decide (k < s + 2)) ∘ symKey t pat.length)
        = B2.length := by
      rw [List.countP_eq_length]
      intro a ha
      have := (List.mem_filter.mp (hB2 ▸ ha)).2
      simp only [Function.comp_apply, decide_eq_true_eq] at this ⊢
      omega
    have c3 : B3.countP ((fun k => decide (k < s + 2)) ∘ symKey t pat.length) = 0 := by
      rw [List.countP_eq_zero]
      intro a ha
      have := (List.mem_filter.mp (hB3 ▸ ha)).2
      simp only [Function.comp_apply, decide_eq_true_eq] at this ⊢
      omega
    rw [c1, c2, c3]
    omega
  refine ⟨by simp [extendRight, hd], A ++ B1, B2, B3 ++ C, ?_, ?_, ?_, ?_, ?_, ?_⟩
  · rw [hsa]
    conv_lhs => rw [hsplit]
    simp [List.append_assoc]
  · simp only [List.length_append, extendRight, hcnt1, hA]
  · simp only [extendRight, Cursor.count, hcnt1, hcnt2]
    omega
  · intro p hp
    rcases List.mem_append.mp hp with hpA | hpB1
    · rw [matchesAt_snoc]
      simp [hAm p hpA]
    · have hmem := List.mem_filter.mp (hB1 ▸ hpB1)
      have hkey : symKey t pat.length p < s + 1 := by
        have := hmem.2
        simpa using this
      rw [matchesAt_snoc, hBm p hmem.1]
      have : (symKey t pat.length p == s + 1) = false := by
        simp only [beq_eq_false_iff_ne, ne_eq]
        omega
      simp [this]
  · intro p hp
    have hmem := List.mem_filter.mp (hB2 ▸ hp)
    have hkey : symKey t pat.length p = s + 1 := by
      have := hmem.2
      simpa using this
    rw [matchesAt_snoc, hBm p hmem.1, hkey]
    simp
  · intro p hp
    rcases List.mem_append.mp hp with hpB3 | hpC
    · have hmem := List.mem_filter.mp (hB3 ▸ hpB3)
      have hkey : s + 1 < symKey t pat.length p := by
        have := hmem.2
        simpa using this
      rw [matchesAt_snoc, hBm p hmem.1]
      have : (symKey t pat.length p == s + 1) = false := by
        simp only [beq_eq_false_iff_ne, ne_eq]
        omega
      simp [this]
    · rw [matchesAt_snoc]
      simp [hCm p hpC]

/-- Extension by a whole sequence preserves the invariant. -/
theorem goodCursor_extendRightSeq (t : List Nat) :
    ∀ (q pat : List Nat) (c : Cursor), GoodCursor t pat c →
      GoodCursor t (pat ++ q) (extendRightSeq t c q)
  | [], pat, c, h => by simpa [extendRightSeq] using h
  | s :: q, pat, c, h => by
      have h2 := goodCursor_extendRightSeq t q (pat ++ [s]) (extendRight t c s)
        (goodCursor_extendRight t pat c s h)
      have e : (pat ++ [s]) ++ q = pat ++ (s :: q) := by simp
      rw [e] at h2
      exact h2

/-- The cursor obtained by extending the root by a query satisfies the
invariant for that query. -/
theorem goodCursor_search (t q : List Nat) :
    GoodCursor t q (extendRightSeq t (rootCursor t) q) := by
  have h := goodCursor_extendRightSeq t q [] (rootCursor t) (goodCursor_root t)
  simpa using h

/-- `count()` of an invariant-satisfying cursor is the number of occurrences
of its query. -/
theorem goodCursor_count (t pat : List Nat) (c : Cursor) (h : GoodCursor t pat c) :
    c.count = (occList t pat).length := by
  obtain ⟨-, A, B, C, hsa, -, hB, hAm, hBm, hCm⟩ := h
  have hperm : (sa t).Perm (List.range (t.length + 1)) :=
    List.perm_insertionSort (sfxLeRel t) (List.range (t.length + 1))
  have hocc : (occList t pat).length = (sa t).countP (matchesAt t pat) := by
    rw [occList, ← List.countP_eq_length_filter, hperm.countP_eq]
  rw [hocc, hsa, List.countP_append, List.countP_append]
  have cA : A.countP (matchesAt t pat) = 0 := by
    rw [List.countP_eq_zero]
    intro p hp
    simp [hAm p hp]
  have cB : B.countP (matchesAt t pat) = B.length :=
    List.countP_eq_length.mpr hBm
  have cC : C.countP (matchesAt t pat) = 0 := by
    rw [List.countP_eq_zero]
    intro p hp
    simp [hCm p hp]
  rw [cA, cB, cC]
  omega

/-- The hits of an exact search are precisely the occurrence positions. -/
theorem searchExact_mem (t q : List Nat) (p : Nat) :
    p ∈ searchExact t q ↔ p ∈ occList t q := by
  obtain ⟨-, A, B, C, hsa, hA, hB, hAm, hBm, hCm⟩ := goodCursor_search t q
  have hperm : (sa t).Perm (List.range (t.length + 1)) :=
    List.perm_insertionSort (sfxLeRel t) (List.range (t.length + 1))
  have hblock : searchExact t q = B :=
    blockOf_eq t (extendRightSeq t (rootCursor t) q) A B C hsa hA hB
  rw [hblock, occList]
  constructor
  · intro hp
    refine List.mem_filter.mpr ⟨?_, hBm p hp⟩
    rw [← hperm.mem_iff, hsa]
    exact List.mem_append.mpr (Or.inr (List.mem_append.mpr (Or.inl hp)))
  · intro hp
    obtain ⟨hpr, hmat⟩ := List.mem_filter.mp hp
    have hmem : p ∈ A ++ (B ++ C) := by
      rw [← hsa, hperm.mem_iff]
      exact hpr
    rcases List.mem_append.mp hmem with hpA | hrest
    · rw [hAm p hpA] at hmat
      exact absurd hmat (by simp)
    · rcases List.mem_append.mp hrest with hpB | hpC
      · exact hpB
      · rw [hCm p hpC] at hmat
        exact absurd hmat (by simp)

/-- C4: for every text and every query that occurs as a substring of the text,
exact search yields a hit at every occurrence position and at no other
position — no false positives, no false negatives. -/
theorem exact_search_hits_iff_occurrence :
    ∀ (t q : List Nat), (∃ p0, matchesAt t q p0 = true) →
      ∀ p : Nat, p ∈ searchExact t q ↔ p ∈ occList t q := by
  intro t q _ p
  exact searchExact_mem t q p

/-- Witness for C4: in the text `[2,1,3,1]` the query `[1]` occurs (e.g. at
position 1), and position 3 is a hit exactly as it is an occurrence. -/
theorem exact_search_witness :
    (3 ∈ searchExact [2, 1, 3, 1] [1] ↔ 3 ∈ occList [2, 1, 3, 1] [1]) ∧
    3 ∈ occList [2, 1, 3, 1] [1] :=
  ⟨exact_search_hits_iff_occurrence [2, 1, 3, 1] [1] ⟨1, by decide⟩ 3, by decide⟩

theorem extendRight_count_zero (t : List Nat) (c : Cursor) (s : Nat)
    (h : c.count = 0) : (extendRight t c s).count = 0 := by
  have hb : blockOf t c = [] := by
    rw [Cursor.count] at h
    rw [blockOf, h]
    rfl
  simp [extendRight, hb, Cursor.count]

theorem extendRightSeq_count_zero (t : List Nat) :
    ∀ (q : List Nat) (c : Cursor), c.count = 0 → (extendRightSeq t c q).count = 0
  | [], _, h => h
  | s :: q, c, h =>
      extendRightSeq_count_zero t q (extendRight t c s) (extendRight_count_zero t c s h)

/-- C7: the empty range is absorbing — a cursor whose `count()` is zero keeps
a zero `count()` under extension by any single symbol and by any symbol
sequence. -/
theorem empty_range_absorbing :
    ∀ (t : List Nat) (c : Cursor) (s : Nat) (q : List Nat), c.count = 0 →
      (extendRight t c s).count = 0 ∧ (extendRightSeq t c q).count = 0 := by
  intro t c s q h
  exact ⟨extendRight_count_zero t c s h, extendRightSeq_count_zero t q c h⟩

/-- Witness for C7 at a concrete empty cursor. -/
theorem empty_range_absorbing_witness :
    (extendRight [0, 1] ⟨5, 5, 2⟩ 1).count = 0 ∧
    (extendRightSeq [0, 1] ⟨5, 5, 2⟩ [0, 1]).count = 0 :=
  empty_range_absorbing [0, 1] ⟨5, 5, 2⟩ 1 [0, 1] (by decide)

/-! ## Model of the bidirectional cursor (spec section 4.3) -/

/-- Modelled from the spec: the operation alphabet of the bidirectional
cursor — extend on the left or on the right by one symbol. -/
inductive BiOp where
  | extLeft : Nat → BiOp
  | extRight : Nat → BiOp

/-- Modelled from the spec: the bidirectional cursor (spec sections 2, 3
and 4.3) pairs a forward cursor over the text with a backward cursor over the
reversed text, together with the query assembled so far — the record that
keeps both sides consistent under interleaved extension. -/
structure BiCursor where
  pat : List Nat
  fwd : Cursor
  bwd : Cursor

/-- Modelled from the spec: the root bidirectional cursor
(`root_cursor_bidirectional()`, spec section 4.1). -/
def biRoot (t : List Nat) : BiCursor :=
  ⟨[], rootCursor t, rootCursor t.reverse⟩

/-- Modelled from the spec: `bi_fm_index_cursor::extend_right` — the forward
side is updated directly by a single-symbol extension; the backward side's
boundaries are recomputed so that they designate the reversed extended query
over the reversed text (the mirrored correction of spec section 4.3). -/
def biExtendRight (t : List Nat) (bc : BiCursor) (s : Nat) : BiCursor :=
  ⟨bc.pat ++ [s], extendRight t bc.fwd s,
   extendRightSeq t.reverse (rootCursor t.reverse) (bc.pat ++ [s]).reverse⟩

/-- Modelled from the spec: `bi_fm_index_cursor::extend_left` — the backward
side is updated directly (a left extension of the query is a right extension
of the reversed query over the reversed text); the forward side's boundaries
are recomputed for the extended query. -/
def biExtendLeft (t : List Nat) (bc : BiCursor) (s : Nat) : BiCursor :=
  ⟨s :: bc.pat, extendRightSeq t (rootCursor t) (s :: bc.pat),
   extendRight t.reverse bc.bwd s⟩

/-- Dispatch of one extension operation. -/
def biApply (t : List Nat) (bc : BiCursor) : BiOp → BiCursor
  | BiOp.extLeft s => biExtendLeft t bc s
  | BiOp.extRight s => biExtendRight t bc s

/-- A finite sequence of extensions applied to a bidirectional cursor. -/
def biApplySeq (t : List Nat) (bc : BiCursor) (ops : List BiOp) : BiCursor :=
  ops.foldl (biApply t) bc

/-- Consistency of a bidirectional cursor: each side is the cursor its side's
text and (reversed) query determine from the root. -/
def BiGood (t : List Nat) (bc : BiCursor) : Prop :=
  bc.fwd = extendRightSeq t (rootCursor t) bc.pat ∧
  bc.bwd = extendRightSeq t.reverse (rootCursor t.reverse) bc.pat.reverse

theorem extendRightSeq_snoc (t : List Nat) (c : Cursor) (q : List Nat) (s : Nat) :
    extendRightSeq t c (q ++ [s]) = extendRight t (extendRightSeq t c q) s := by
  simp [extendRightSeq, List.foldl_append]

theorem biGood_apply (t : List Nat) (bc : BiCursor) (op : BiOp)
    (h : BiGood t bc) : BiGood t (biApply t bc op) := by
  obtain ⟨hf, hb⟩ := h
  cases op with
  | extLeft s =>
      refine ⟨rfl, ?_⟩
      show extendRight t.reverse bc.bwd s
          = extendRightSeq t.reverse (rootCursor t.reverse) (s :: bc.pat).reverse
      rw [hb, List.reverse_cons, extendRightSeq_snoc]
  | extRight s =>
      refine ⟨?_, rfl⟩
      show extendRight t bc.fwd s
          = extendRightSeq t (rootCursor t) (bc.pat ++ [s])
      rw [hf, extendRightSeq_snoc]

theorem biGood_applySeq (t : List Nat) :
    ∀ (ops : List BiOp) (bc : BiCursor), BiGood t bc → BiGood t (biApplySeq t bc ops)
  | [], _, h => h
  | op :: ops, bc, h =>
      biGood_applySeq t ops (biApply t bc op) (biGood_apply t bc op h)

/-- A match cannot extend past the end of the text. -/
theorem matchesAt_le (t q : List Nat) (p : Nat) (hp : p ≤ t.length)
    (h : matchesAt t q p = true) :
    p + q.length ≤ t.length := by
  have h1 := (matchesAt_iff t q p).mp h
  have h2 := congrArg List.length h1
  rw [List.length_take, List.length_drop] at h2
  omega

/-- Occurrences transfer to the reversed text and reversed query, at the
mirrored begin position. -/
theorem matchesAt_reverse (t q : List Nat) (p : Nat) (hp : p ≤ t.length)
    (h : matchesAt t q p = true) :
    matchesAt t.reverse q.reverse (t.length - q.length - p) = true := by
  have hle := matchesAt_le t q p hp h
  rw [matchesAt_iff] at h ⊢
  rw [List.length_reverse, List.drop_reverse]
  have e1 : t.length - (t.length - q.length - p) = p + q.length := by omega
  rw [e1, List.take_reverse]
  have e2 : (t.take (p + q.length)).length - q.length = p := by
    rw [List.length_take]
    omega
  rw [e2, List.drop_take]
  have e3 : p + q.length - p = q.length := by omega
  rw [e3, h]

/-- The reversed text contains exactly as many occurrences of the reversed
query as the text contains of the query. -/
theorem occList_length_reverse (t q : List Nat) :
    (occList t.reverse q.reverse).length = (occList t q).length := by
  have nd1 : (occList t.reverse q.reverse).Nodup :=
    (List.nodup_range _).filter _
  have nd2 : (occList t q).Nodup :=
    (List.nodup_range _).filter _
  rw [← List.toFinset_card_of_nodup nd1, ← List.toFinset_card_of_nodup nd2]
  refine Finset.card_nbij' (fun p => t.length - q.length - p)
    (fun p => t.length - q.length - p) ?_ ?_ ?_ ?_
  · intro a ha
    rw [List.mem_toFinset, occList, List.mem_filter, List.mem_range] at ha
    obtain ⟨hr, hmat⟩ := ha
    rw [List.length_reverse] at hr
    have ha' : a ≤ t.reverse.length := by
      rw [List.length_reverse]
      omega
    have hle := matchesAt_le _ _ _ ha' hmat
    rw [List.length_reverse, List.length_reverse] at hle
    dsimp only
    rw [List.mem_toFinset, occList, List.mem_filter, List.mem_range]
    constructor
    · omega
    · have := matchesAt_reverse t.reverse q.reverse a ha' hmat
      rw [List.reverse_reverse, List.reverse_reverse, List.length_reverse,
        List.length_reverse] at this
      exact this
  · intro a ha
    rw [List.mem_toFinset, occList, List.mem_filter, List.mem_range] at ha
    obtain ⟨hr, hmat⟩ := ha
    have ha' : a ≤ t.length := by omega
    have hle := matchesAt_le _ _ _ ha' hmat
    dsimp only
    rw [List.mem_toFinset, occList, List.mem_filter, List.mem_range]
    constructor
    · rw [List.length_reverse]
      omega
    · exact matchesAt_reverse t q a ha' hmat
  · intro a ha
    rw [List.mem_toFinset, occList, List.mem_filter, List.mem_range] at ha
    obtain ⟨hr, hmat⟩ := ha
    rw [List.length_reverse] at hr
    have ha' : a ≤ t.reverse.length := by
      rw [List.length_reverse]
      omega
    have hle := matchesAt_le _ _ _ ha' hmat
    rw [List.length_reverse, List.length_reverse] at hle
    dsimp only
    omega
  · intro a ha
    rw [List.mem_toFinset, occList, List.mem_filter, List.mem_range] at ha
    obtain ⟨hr, hmat⟩ := ha
    have ha' : a ≤ t.length := by omega
    have hle := matchesAt_le _ _ _ ha' hmat
    dsimp only
    omega

/-- C5: after any finite sequence of `extend_left`/`extend_right` operations
applied from the bidirectional root, the forward cursor's `count()` equals the
backward cursor's `count()`; as this holds for every operation sequence, it
holds after every intermediate call as well. -/
theorem bidirectional_counts_agree :
    ∀ (t : List Nat) (ops : List BiOp),
      (biApplySeq t (biRoot t) ops).fwd.count = (biApplySeq t (biRoot t) ops).bwd.count := by
  intro t ops
  obtain ⟨hf, hb⟩ := biGood_applySeq t ops (biRoot t) ⟨rfl, rfl⟩
  rw [hf, hb,
    goodCursor_count t _ _ (goodCursor_search t _),
    goodCursor_count t.reverse _ _ (goodCursor_search t.reverse _),
    occList_length_reverse]

/-! ## Model of the bounded-error search engine (spec section 4.4) -/

/-- Modelled from the spec: one branch of the edit-operation search tree (spec
section 4.4), specialised to the question "does the query match the text
starting here": exact match-and-advance, substitution (any symbol different
from the query symbol), insertion (consume a text symbol, query position
unchanged) and deletion (advance the query without consuming text), each gated
by its per-kind budget and by the total budget, both decremented and never
taken below zero; a branch yields a hit when the query is fully consumed. The
fuel argument only bounds the recursion depth; it is always instantiated
strictly above text length plus query length, which every branch decreases. -/
def approxStep : Nat → List Nat → List Nat → Nat → Nat → Nat → Nat → Bool
  | 0, _, _, _, _, _, _ => false
  | fuel + 1, t, q, sub, ins, del, tot =>
    match q with
    | [] => true
    | c :: q0 =>
      match t with
      | [] =>
          decide (0 < del) && decide (0 < tot) &&
            approxStep fuel [] q0 sub ins (del - 1) (tot - 1)
      | x :: t0 =>
          (x == c && approxStep fuel t0 q0 sub ins del tot)
          || (decide (0 < sub) && decide (0 < tot) && !(x == c) &&
                approxStep fuel t0 q0 (sub - 1) ins del (tot - 1))
          || (decide (0 < ins) && decide (0 < tot) &&
                approxStep fuel t0 (c :: q0) sub (ins - 1) del (tot - 1))
          || (decide (0 < del) && decide (0 < tot) &&
                approxStep fuel (x :: t0) q0 sub ins (del - 1) (tot - 1))

/-- Modelled from the spec: whether the query matches the text at its start
within the given substitution/insertion/deletion/total budgets. -/
def approxMatch (t q : List Nat) (sub ins del tot : Nat) : Bool :=
  approxStep (t.length + q.length + 1) t q sub ins del tot

/-- Modelled from the spec: the deduplicated result set of the bounded-error
search (spec section 4.4) — the begin positions of the text at which the query
matches within the budgets, each position reported exactly once. -/
def searchApprox (t q : List Nat) (sub ins del tot : Nat) : List Nat :=
  (List.range (t.length + 1)).filter
    (fun p => approxMatch (t.drop p) q sub ins del tot)

/-- Raising the total budget can only turn misses into hits, never hits into
misses. -/
theorem approxStep_mono (fuel : Nat) :
    ∀ (t q : List Nat) (sub ins del tot tot' : Nat), tot ≤ tot' →
      approxStep fuel t q sub ins del tot = true →
      approxStep fuel t q sub ins del tot' = true := by
  induction fuel with
  | zero =>
      intro t q sub ins del tot tot' _ h
      exact absurd h (by simp [approxStep])
  | succ fuel ih =>
      intro t q sub ins del tot tot' hle h
      cases q with
      | nil => simp [approxStep]
      | cons c q0 =>
          cases t with
          | nil =>
              simp only [approxStep, Bool.and_eq_true, decide_eq_true_eq] at h ⊢
              obtain ⟨⟨hdel, htot⟩, hrec⟩ := h
              exact ⟨⟨hdel, by omega⟩, ih _ _ _ _ _ _ _ (by omega) hrec⟩
          | cons x t0 =>
              simp only [approxStep, Bool.or_eq_true, Bool.and_eq_true,
                decide_eq_true_eq, Bool.not_eq_true'] at h ⊢
              rcases h with ((h1 | h2) | h3) | h4
              · exact Or.inl (Or.inl (Or.inl ⟨h1.1, ih _ _ _ _ _ _ _ hle h1.2⟩))
              · obtain ⟨⟨⟨hsub, htot⟩, hne⟩, hrec⟩ := h2
                exact Or.inl (Or.inl (Or.inr ⟨⟨⟨hsub, by omega⟩, hne⟩,
                  ih _ _ _ _ _ _ _ (by omega) hrec⟩))
              · obtain ⟨⟨hins, htot⟩, hrec⟩ := h3
                exact Or.inl (Or.inr ⟨⟨hins, by omega⟩,
                  ih _ _ _ _ _ _ _ (by omega) hrec⟩)
              · obtain ⟨⟨hdel, htot⟩, hrec⟩ := h4
                exact Or.inr ⟨⟨hdel, by omega⟩,
                  ih _ _ _ _ _ _ _ (by omega) hrec⟩

/-- C8: for a fixed text, query and per-kind error budgets, increasing the
total error budget never decreases the number of hits returned. -/
theorem hit_count_monotone_in_total_budget :
    ∀ (t q : List Nat) (sub ins del tot tot' : Nat), tot ≤ tot' →
      (searchApprox t q sub ins del tot).length ≤
        (searchApprox t q sub ins del tot').length := by
  intro t q sub ins del tot tot' hle
  rw [searchApprox, searchApprox, ← List.countP_eq_length_filter,
    ← List.countP_eq_length_filter]
  apply List.countP_mono_left
  intro p _ hp
  exact approxStep_mono _ _ _ _ _ _ _ _ hle hp

/-- Witness for C8: concrete text `[0,1,2]` and query `[1]` with the total
budget raised from 0 to 1. -/
theorem hit_count_monotone_witness :
    (searchApprox [0, 1, 2] [1] 1 0 0 0).length ≤
      (searchApprox [0, 1, 2] [1] 1 0 0 1).length :=
  hit_count_monotone_in_total_budget [0, 1, 2] [1] 1 0 0 0 1 (by decide)

/-- Reference text of the search tutorial (search_solution3.cpp, line 10),
`CGCTGTCTGAAGGATGAGTGTCAGCCAGTGTAACCCGATGAGCTACCCAGTAGTCGAACTGGGCCAGACAACCCGGCGCTAATGCACTCA`,
as dna4 ranks (`A`=0, `C`=1, `G`=2, `T`=3). -/
def tutText : List Nat :=
  [1, 2, 1, 3, 2, 3, 1, 3, 2, 0, 0, 2, 2, 0, 3, 2, 0, 2, 3, 2, 3, 1, 0, 2, 1, 1, 0, 2, 3, 2,
   3, 0, 0, 1, 1, 1, 2, 0, 3, 2, 0, 2, 1, 3, 0, 1, 1, 1, 0, 2, 3, 0, 2, 3, 1, 2, 0, 0, 1, 3,
   2, 2, 2, 1, 1, 0, 2, 0, 1, 0, 0, 1, 1, 1, 2, 2, 1, 2, 1, 3, 0, 0, 3, 2, 1, 0, 1, 3, 1, 0]

/-- Number of positions at which two windows disagree (on their common
length). -/
def mismatchCount (u v : List Nat) : Nat :=
  (List.zip u v).countP (fun ab => !(ab.1 == ab.2))

/-- The claim-side notion of a hit for the tutorial search: a full-length
window at `p` that is the query exactly or a one-substitution variant of
it. -/
def windowHit (t q : List Nat) (p : Nat) : Bool :=
  ((t.drop p).take q.length).length == q.length &&
    decide (mismatchCount ((t.drop p).take q.length) q ≤ 1)

/-- C6: searching the tutorial text for `GCT` (`[2,1,3]`) with one allowed
substitution returns each matching begin position exactly once — the
duplicate-free, sorted list of the exact-match positions and the
one-substitution positions (12 hits, as the tutorial prints), and nothing
else. The text is the single reference, so positions determine the
(reference, position) pairs. -/
theorem tutorial_search_dedup :
    (searchApprox tutText [2, 1, 3] 1 0 0 1).Nodup ∧
    searchApprox tutText [2, 1, 3] 1 0 0 1 =
      [1, 5, 12, 23, 36, 41, 57, 62, 75, 77, 83, 85] ∧
    searchApprox tutText [2, 1, 3] 1 0 0 1 =
      (List.range (tutText.length + 1)).filter (windowHit tutText [2, 1, 3]) := by
  decide
